import Mathlib

/-
Verification of the evolutionary-optimizer core of this repository.

The generic genetic-algorithm engine (src/genetic_algorithm.py) is embedded
below as executable Lean definitions.  Python machine floats become exact
rationals; the process-wide random source (the functions random.choices,
random.random, random.uniform) is modelled as an explicit state threaded
through every operation, whose draws are arbitrary streams; Python
exceptions become an Except monad.  The while-loop of _reduce_replace is
embedded with an explicit fuel argument so that every definition stays
structurally recursive and kernel-evaluable; the fuel passed at the call
site is proved sufficient, so the fuel-exhaustion branch is unreachable.

The allocation candidate (portfolio.py) is not part of the sources, only
its test suite is; the definitions concerning it are modelled from the
specification and say so in their doc comments.
-/

/-- Errors that can surface out of the engine or out of a candidate
operation.  indexError mirrors Python's IndexError (empty tournament),
emptyPopulation mirrors the ValueError of max on an empty sequence,
statisticsError mirrors statistics.mean on empty data, fuel marks the
unreachable fuel-exhaustion branch of the embedded while loop, and
candidate carries an error raised by a chromosome operation. -/
inductive GAErr where
  | indexError
  | emptyPopulation
  | statisticsError
  | fuel
  | candidate (msg : String)
  deriving DecidableEq, Repr

/-- The selection strategies of the engine; the source defines exactly one. -/
inductive SelectionType where
  | tournament
  deriving DecidableEq, Repr

/-- State of the engine: the fields stored by GeneticAlgorithm.__init__. -/
structure GA (C : Type) where
  population : List C
  threshold : ℚ
  maxGenerations : Nat
  mutationRate : ℚ
  crossoverRate : ℚ
  selectionType : SelectionType
  fitnessKey : C → ℚ
  elitism : Bool

/-- GeneticAlgorithm.__init__: it stores every argument unchanged and
performs no validation whatsoever.  The source defaults a missing
fitness_key to delegation into the chromosome's own fitness method; in
this chromosome-generic embedding the accessor is always passed
explicitly, so that default is a matter of the instantiation. -/
def mkGA {C : Type} (population : List C) (threshold : ℚ) (maxGenerations : Nat)
    (mutationRate : ℚ) (crossoverRate : ℚ) (selectionType : SelectionType)
    (fitnessKey : C → ℚ) (elitism : Bool) : GA C :=
  { population := population
    threshold := threshold
    maxGenerations := maxGenerations
    mutationRate := mutationRate
    crossoverRate := crossoverRate
    selectionType := selectionType
    fitnessKey := fitnessKey
    elitism := elitism }

/-- The capabilities the engine consumes: the two draws it takes from the
ambient random module (an index draw for random.choices and a unit-interval
draw for random.random), and the two chromosome operations it invokes.
S is the threaded state (random streams, and for reference-semantics
instantiations also a heap); C is the chromosome type.  mutate is in place
in the source, so here it returns the possibly-rewritten chromosome
together with the new state. -/
structure EngineOps (S C : Type) where
  pickNat : S → Nat × S
  roll : S → ℚ × S
  crossover : C → C → S → Except GAErr ((C × C) × S)
  mutate : C → S → C × S

/-- Descending-by-key order: the comparison used by sorted(key, reverse=True). -/
def keyGe {C : Type} (key : C → ℚ) (a b : C) : Prop := key b ≤ key a

instance {C : Type} (key : C → ℚ) : DecidableRel (keyGe key) :=
  fun a b => inferInstanceAs (Decidable (key b ≤ key a))

instance {C : Type} (key : C → ℚ) : IsTotal C (keyGe key) :=
  ⟨fun a b => (le_total (key b) (key a)).imp id id⟩

instance {C : Type} (key : C → ℚ) : IsTrans C (keyGe key) :=
  ⟨fun _ _ _ h1 h2 => le_trans h2 h1⟩

/-- Python's sorted(xs, key, reverse=True): a stable descending sort.  Any
stable sort produces the same output, so insertion sort embeds it exactly. -/
def sortDesc {C : Type} (key : C → ℚ) (l : List C) : List C :=
  List.insertionSort (keyGe key) l

/-- random.choices(population, k): k independent draws with replacement.
Each draw consumes one stream value and indexes the population with it
(floor(random()*n) is modelled as an arbitrary natural taken mod n); on an
empty population any draw raises IndexError, exactly as in CPython. -/
def drawChoices {S C : Type} (ops : EngineOps S C) (pop : List C) :
    Nat → S → Except GAErr (List C × S)
  | 0, s => .ok ([], s)
  | Nat.succ k, s =>
    let (v, s1) := ops.pickNat s
    match pop[v % pop.length]? with
    | none => .error .indexError
    | some c =>
      match drawChoices ops pop k s1 with
      | .error e => .error e
      | .ok (rest, s2) => .ok (c :: rest, s2)

/-- GeneticAlgorithm._pick_tournament: draw the competitors with
replacement, sort them descending by the fitness accessor, return the top
two; a single participant is duplicated; an empty participant list hits
sorted_participants[0] and raises IndexError. -/
def pickTournament {S C : Type} (ops : EngineOps S C) (key : C → ℚ)
    (pop : List C) (competitors : Nat) (s : S) : Except GAErr ((C × C) × S) :=
  match drawChoices ops pop competitors s with
  | .error e => .error e
  | .ok (participants, s1) =>
    match sortDesc key participants with
    | p :: q :: _ => .ok ((p, q), s1)
    | [p] => .ok ((p, p), s1)
    | [] => .error .indexError

/-- The while loop of GeneticAlgorithm._reduce_replace: keep drawing two
parents by tournament, roll the crossover gate, and append either the two
children or the two parents, until the batch reaches the target size.  The
fuel only bounds the recursion; reduceReplace passes enough of it. -/
def buildNew {S C : Type} (ops : EngineOps S C) (ga : GA C) (target : Nat) :
    Nat → List C → S → Except GAErr (List C × S)
  | 0, acc, s => if acc.length < target then .error .fuel else .ok (acc, s)
  | Nat.succ fuel, acc, s =>
    if acc.length < target then
      match pickTournament ops ga.fitnessKey ga.population 3 s with
      | .error e => .error e
      | .ok ((p1, p2), s1) =>
        let (r, s2) := ops.roll s1
        if r < ga.crossoverRate then
          match ops.crossover p1 p2 s2 with
          | .error e => .error e
          | .ok ((c1, c2), s3) => buildNew ops ga target fuel (acc ++ [c1, c2]) s3
        else
          buildNew ops ga target fuel (acc ++ [p1, p2]) s2
    else .ok (acc, s)

/-- GeneticAlgorithm._reduce_replace: assemble the new batch, drop the last
element if the batch overshot the target, and install it as the population. -/
def reduceReplace {S C : Type} (ops : EngineOps S C) (ga : GA C) (s : S) :
    Except GAErr (GA C × S) :=
  match buildNew ops ga ga.population.length (ga.population.length + 1) [] s with
  | .error e => .error e
  | .ok (newPop, s1) =>
    .ok ({ ga with population :=
            if ga.population.length < newPop.length then newPop.dropLast else newPop },
         s1)

/-- GeneticAlgorithm._apply_elitism, as a function of the values of
self._population and of its argument.  The in-place sorts of the source
commute with this reading: when run calls it the two lists are one and the
same object, which here means the two arguments receive equal values. -/
def applyElitism {C : Type} (elitism : Bool) (key : C → ℚ)
    (selfPop newPop : List C) : List C :=
  if elitism = false then newPop
  else
    let sortedSelf := sortDesc key selfPop
    let sortedNew := sortDesc key newPop
    let eliteSize := max 1 (selfPop.length / 10)
    sortedSelf.take eliteSize ++ sortedNew.take (selfPop.length - eliteSize)

/-- GeneticAlgorithm._mutation: one Bernoulli gate per chromosome; on
success the chromosome mutates itself in place. -/
def mutationPass {S C : Type} (ops : EngineOps S C) (rate : ℚ) :
    List C → S → List C × S
  | [], s => ([], s)
  | c :: cs, s =>
    let (r, s1) := ops.roll s
    let (c2, s2) := if r < rate then ops.mutate c s1 else (c, s1)
    let (rest, s3) := mutationPass ops rate cs s2
    (c2 :: rest, s3)

/-- One reproduction step of GeneticAlgorithm.run: _reduce_replace, then
(only if elitism is on) self._population = _apply_elitism(self._population)
-- note both occurrences of self._population there already denote the new
population -- and finally _mutation. -/
def genStep {S C : Type} (ops : EngineOps S C) (ga : GA C) (s : S) :
    Except GAErr (GA C × S) :=
  match reduceReplace ops ga s with
  | .error e => .error e
  | .ok (ga1, s1) =>
    let ga2 :=
      if ga1.elitism then
        { ga1 with population :=
            applyElitism ga1.elitism ga1.fitnessKey ga1.population ga1.population }
      else ga1
    let (pop3, s3) := mutationPass ops ga2.mutationRate ga2.population s1
    .ok ({ ga2 with population := pop3 }, s3)

/-- Python's max(xs, key=k) starting from a first element: it keeps the
current holder unless a later element is strictly better, so ties go to the
first seen. -/
def firstMaxBy {C : Type} (key : C → ℚ) : C → List C → C
  | cur, [] => cur
  | cur, x :: xs =>
    if key cur < key x then firstMaxBy key x xs else firstMaxBy key cur xs

/-- statistics.mean of a list of rationals (callers guard against []). -/
def listMean (l : List ℚ) : ℚ := l.sum / l.length

/-- One row of the per-generation history assembled by run. -/
structure GenRecord where
  gen : Nat
  bestFitness : ℚ
  meanFitness : ℚ
  deriving DecidableEq, Repr

/-- The generation loop of GeneticAlgorithm.run.  Each iteration appends
one history row, breaks when the running best meets the threshold, then
reproduces and possibly promotes a strictly better population best.
The quadruple returned is (outcome, self.results, self, random state):
self.results is populated only when the loop finishes or breaks, exactly
as in the source where the assignment sits after the for statement, so an
error propagating out of a generation leaves it none. -/
def runLoop {S C : Type} (ops : EngineOps S C) :
    GA C → C → List GenRecord → Nat → Nat → S →
      Except GAErr C × Option (List GenRecord) × GA C × S
  | ga, best, hist, _, 0, s => (.ok best, some hist, ga, s)
  | ga, best, hist, gen, Nat.succ remaining, s =>
    match ga.population with
    | [] => (.error .statisticsError, none, ga, s)
    | _ :: _ =>
      let cbf := ga.fitnessKey best
      let cmf := listMean (ga.population.map ga.fitnessKey)
      let hist1 := hist ++ [⟨gen, cbf, cmf⟩]
      if ga.threshold ≤ cbf then (.ok best, some hist1, ga, s)
      else
        match genStep ops ga s with
        | .error e => (.error e, none, ga, s)
        | .ok (ga2, s2) =>
          match ga2.population with
          | [] => (.error .emptyPopulation, none, ga2, s2)
          | q :: qs =>
            let highest := firstMaxBy ga2.fitnessKey q qs
            let best2 := if ga2.fitnessKey best < ga2.fitnessKey highest then highest else best
            runLoop ops ga2 best2 hist1 (gen + 1) remaining s2

/-- GeneticAlgorithm.run: seed the running best with max(population), then
loop for at most max_generations generations.  An empty population makes
the initial max raise ValueError. -/
def runGA {S C : Type} (ops : EngineOps S C) (ga : GA C) (s : S) :
    Except GAErr C × Option (List GenRecord) × GA C × S :=
  match ga.population with
  | [] => (.error .emptyPopulation, none, ga, s)
  | p :: ps => runLoop ops ga (firstMaxBy ga.fitnessKey p ps) [] 0 ga.maxGenerations s

/-- A concrete random source: two arbitrary streams (index draws and unit
draws) with their positions. -/
structure Rsrc where
  nats : Nat → Nat
  rats : Nat → ℚ
  t : Nat
  u : Nat

/-- Concrete engine capabilities over the plain stream state, with a
chromosome whose crossover returns the parents and whose mutation is the
identity; used to instantiate the generic theorems on concrete inputs. -/
def streamOps (C : Type) : EngineOps Rsrc C :=
  { pickNat := fun s => (s.nats s.t, { s with t := s.t + 1 })
    roll := fun s => (s.rats s.u, { s with u := s.u + 1 })
    crossover := fun a b s => .ok ((a, b), s)
    mutate := fun c s => (c, s) }

/-- Engine capabilities whose crossover always raises, to exercise the
error-propagation path of run. -/
def failOps (C : Type) : EngineOps Rsrc C :=
  { pickNat := fun s => (s.nats s.t, { s with t := s.t + 1 })
    roll := fun s => (s.rats s.u, { s with u := s.u + 1 })
    crossover := fun _ _ _ => .error (.candidate "boom")
    mutate := fun c s => (c, s) }

/-- Error raised by the allocation candidate's weights accessor. -/
inductive PortfolioErr where
  | degenerateWeights
  deriving DecidableEq, Repr

/-- Modelled from the spec: the repository file portfolio.py is absent from
the sources (only src/test/test_portfolio.py is present), so the Allocation
Candidate is embedded from the specification's words.  It holds a mapping
from asset identifier to raw weight (an insertion-ordered association
list), a read-only reference to the shared returns dataset (an opaque
handle here, since no claim touches the numbers inside it), and the
risk-free rate fixed at construction. -/
structure Portfolio where
  rawWeights : List (String × ℚ)
  returnsRef : Nat
  risk_free_rate : ℚ
  deriving DecidableEq, Repr

/-- Sum of the raw weight values of a candidate. -/
def Portfolio.weightsTotal (p : Portfolio) : ℚ := (p.rawWeights.map Prod.snd).sum

/-- Modelled from the spec: the weights accessor returns a new mapping in
which every raw weight is divided by the sum of all raw weights, and raises
DegenerateWeights when that sum is exactly zero. -/
def Portfolio.weights (p : Portfolio) : Except PortfolioErr (List (String × ℚ)) :=
  if p.weightsTotal = 0 then .error .degenerateWeights
  else .ok (p.rawWeights.map (fun kv => (kv.1, kv.2 / p.weightsTotal)))

/-- Raw weight stored for one asset identifier (the dict lookup
peer._weights[asset]; callers only use it on identifiers the peer holds). -/
def Portfolio.lookupW (p : Portfolio) (a : String) : ℚ :=
  match p.rawWeights.find? (fun kv => kv.1 == a) with
  | some kv => kv.2
  | none => 0

/-- Modelled from the spec: crossover splits the asset list, in the
enumeration order of self's weights mapping, at the midpoint floor(n/2);
child A takes the first half of the weights from self and the rest from the
peer, child B takes the complementary split; both children are newly
constructed, share the same returns reference and inherit self's risk-free
rate, and the parents are untouched. -/
def Portfolio.crossover (p q : Portfolio) : Portfolio × Portfolio :=
  let mid := p.rawWeights.length / 2
  let firstSelf := p.rawWeights.take mid
  let lastSelf := p.rawWeights.drop mid
  ({ rawWeights := firstSelf ++ lastSelf.map (fun kv => (kv.1, q.lookupW kv.1))
     returnsRef := p.returnsRef
     risk_free_rate := p.risk_free_rate },
   { rawWeights := firstSelf.map (fun kv => (kv.1, q.lookupW kv.1)) ++ lastSelf
     returnsRef := p.returnsRef
     risk_free_rate := p.risk_free_rate })

/-- A random() draw is a value in the interval from 0 inclusive to 1
exclusive; an arbitrary stream value is folded into that range (every
actual draw is reachable, and no value outside the range ever appears,
exactly as with the real random source). -/
def clamp01 (x : ℚ) : ℚ := if 0 ≤ x ∧ x < 1 then x else 0

/-- A uniform(-0.1, 0.1) draw is a value of the closed interval from -1/10
to 1/10; an arbitrary stream value is folded into that range. -/
def clampPert (x : ℚ) : ℚ :=
  if x < -(1/10) then -(1/10) else if 1/10 < x then 1/10 else x

/-- Modelled from the spec: the per-asset body of mutate.  For each asset
weight in order an independent Bernoulli gate fires with the given
probability; on success a perturbation drawn uniformly from the closed
interval [-1/10, 1/10] is added and the result is floored at zero. -/
def mutateWeights (rate : ℚ) : List (String × ℚ) → Rsrc → List (String × ℚ) × Rsrc
  | [], s => ([], s)
  | (a, w) :: rest, s =>
    let g := clamp01 (s.rats s.u)
    let s1 : Rsrc := { s with u := s.u + 1 }
    if g < rate then
      let d := clampPert (s1.rats s1.u)
      let s2 : Rsrc := { s1 with u := s1.u + 1 }
      let (tail, s3) := mutateWeights rate rest s2
      ((a, max 0 (w + d)) :: tail, s3)
    else
      let (tail, s2) := mutateWeights rate rest s1
      ((a, w) :: tail, s2)

/-- Modelled from the spec: mutate(mutation_rate) rewrites the receiver's
stored raw weights in place; value-wise it returns the rewritten candidate
and the advanced random state. -/
def Portfolio.mutate (rate : ℚ) (p : Portfolio) (s : Rsrc) : Portfolio × Rsrc :=
  let (w, s1) := mutateWeights rate p.rawWeights s
  ({ p with rawWeights := w }, s1)

/-- Reference-semantics state for the engine: a heap assigning to each
candidate identity its stored raw weights, the next fresh identity, and
the random streams.  Chromosomes are heap identities, so carrying a parent
forward by reference and mutating it in place are both observable. -/
structure StoreS where
  heap : Nat → List (String × ℚ)
  nextId : Nat
  rng : Rsrc

/-- Overwrite one heap cell. -/
def storeWrite (s : StoreS) (i : Nat) (w : List (String × ℚ)) : StoreS :=
  { s with heap := fun j => if j = i then w else s.heap j }

/-- Engine capabilities over the heap state, with the spec-modelled
allocation-candidate operators: crossover allocates two fresh objects with
the midpoint splice, and mutate rewrites the receiver's heap cell in place
at the default mutation rate 1/5 (the engine invokes mutate with no
argument, so the candidate's own default applies) and returns the same
identity. -/
def storeOps : EngineOps StoreS Nat :=
  { pickNat := fun s => (s.rng.nats s.rng.t, { s with rng := { s.rng with t := s.rng.t + 1 } })
    roll := fun s => (s.rng.rats s.rng.u, { s with rng := { s.rng with u := s.rng.u + 1 } })
    crossover := fun i j s =>
      let pa : Portfolio := { rawWeights := s.heap i, returnsRef := 0, risk_free_rate := 1/5 }
      let pb : Portfolio := { rawWeights := s.heap j, returnsRef := 0, risk_free_rate := 1/5 }
      let (ca, cb) := Portfolio.crossover pa pb
      let s1 := storeWrite s s.nextId ca.rawWeights
      let s2 := storeWrite s1 (s.nextId + 1) cb.rawWeights
      .ok ((s.nextId, s.nextId + 1), { s2 with nextId := s.nextId + 2 })
    mutate := fun i s =>
      let (w, rng1) := mutateWeights (1/5) (s.heap i) s.rng
      (i, storeWrite { s with rng := rng1 } i w) }

/-- Constant index stream 0. -/
def natsZero : Nat → Nat := fun _ => 0

/-- Constant index stream 1. -/
def natsOne : Nat → Nat := fun _ => 1

/-- Index stream that walks the population in order. -/
def natsId : Nat → Nat := fun t => t

/-- Constant unit-interval stream 9/10. -/
def ratsHigh : Nat → ℚ := fun _ => 9/10

/-- Constant unit-interval stream 1/20. -/
def ratsLow : Nat → ℚ := fun _ => 1/20

/-- Random state whose index draws always hit position 1 and whose unit
draws are all 9/10. -/
def rsrcHigh : Rsrc := { nats := natsOne, rats := ratsHigh, t := 0, u := 0 }

/-- Random state whose index draws walk positions 0, 1, 2, ... and whose
unit draws are all 9/10. -/
def rsrcSeq : Rsrc := { nats := natsId, rats := ratsHigh, t := 0, u := 0 }

/-- Random state whose index draws always hit position 0 and whose unit
draws are all 1/20. -/
def rsrcLow : Rsrc := { nats := natsZero, rats := ratsLow, t := 0, u := 0 }

/-- Engine over chromosomes [10, 1] with fitness the identity, elitism on,
crossover rate 1/2, mutation rate 0, one generation, unreachable threshold. -/
def gaC1 : GA ℚ := mkGA [10, 1] 100 1 0 (1/2) .tournament id true

/-- Engine over chromosomes [5, 1], crossover rate 1 so that the first
reproduction round invokes the chromosome crossover. -/
def gaC3 : GA ℚ := mkGA [5, 1] 100 3 0 1 .tournament id true

/-- Engine over three chromosomes, whose first reproduction overshoots the
odd target size by one. -/
def gaC5 : GA ℚ := mkGA [3, 1, 2] 100 1 0 (1/2) .tournament id true

/-- Engine over Bool chromosomes with a constant fitness accessor, so the
threshold 100 is unreachable. -/
def gaC4 : GA Bool := mkGA [true, false] 100 2 0 0 .tournament (fun _ => 0) true

/-- Engine over heap identities 0 and 1 (the caller-supplied candidates),
elitism off, crossover rate 0 so parents are always carried forward by
reference, engine mutation rate 1. -/
def gaC10 : GA Nat := mkGA [0, 1] 100 1 1 0 .tournament (fun _ => 0) false

/-- Initial heap for the reference-semantics run: the caller's candidate 0
holds weight 1/2 on asset A, candidate 1 holds 1/3. -/
def sC10 : StoreS :=
  { heap := fun i => if i = 0 then [("A", 1/2)] else if i = 1 then [("A", 1/3)] else []
    nextId := 2
    rng := rsrcLow }

/-- What the weights accessor does to one entry when the raw total is T:
the identifier is kept, the value is divided by T, and consequently the
sign is kept when T is positive and flipped when T is negative. -/
def normEntryOk (T : ℚ) (kv nv : String × ℚ) : Prop :=
  nv.1 = kv.1 ∧ nv.2 = kv.2 / T ∧
  (0 < T → (0 < kv.2 → 0 < nv.2) ∧ (kv.2 < 0 → nv.2 < 0)) ∧
  (T < 0 → (0 < kv.2 → nv.2 < 0) ∧ (kv.2 < 0 → 0 < nv.2))

/-- A candidate holding a short position larger than its long position, so
the raw weights sum to -1. -/
def pNegTotal : Portfolio :=
  { rawWeights := [("A", -2), ("B", 1)], returnsRef := 0, risk_free_rate := 1/5 }

/-- A candidate with positive raw total 100 (the proportions 30/70 of the
test suite). -/
def pPosTotal : Portfolio :=
  { rawWeights := [("A", 30), ("B", 70)], returnsRef := 0, risk_free_rate := 1/5 }

/-- A candidate whose raw weights sum to zero. -/
def pZeroTotal : Portfolio :=
  { rawWeights := [("A", 0), ("B", 0)], returnsRef := 0, risk_free_rate := 1/5 }

/-- First crossover parent of the test suite: four assets at 1/4 each. -/
def pTest1 : Portfolio :=
  { rawWeights := [("PETR4.SA", 1/4), ("VALE3.SA", 1/4), ("ITUB4.SA", 1/4), ("BBDC4.SA", 1/4)]
    returnsRef := 7
    risk_free_rate := 1/5 }

/-- Second crossover parent of the test suite: the same four assets at
2/5, 3/10, 1/5, 1/10, with a different risk-free rate. -/
def pTest2 : Portfolio :=
  { rawWeights := [("PETR4.SA", 2/5), ("VALE3.SA", 3/10), ("ITUB4.SA", 1/5), ("BBDC4.SA", 1/10)]
    returnsRef := 7
    risk_free_rate := 3/20 }

instance {E A : Type} [DecidableEq E] [DecidableEq A] : DecidableEq (Except E A) := fun a b =>
  match a, b with
  | .error e, .error f =>
    if h : e = f then .isTrue (congrArg Except.error h)
    else .isFalse fun c => h (Except.error.inj c)
  | .error _, .ok _ => .isFalse fun c => Except.noConfusion c
  | .ok _, .error _ => .isFalse fun c => Except.noConfusion c
  | .ok x, .ok y =>
    if h : x = y then .isTrue (congrArg Except.ok h)
    else .isFalse fun c => h (Except.ok.inj c)

theorem sortDesc_perm {C : Type} (key : C → ℚ) (l : List C) :
    List.Perm (sortDesc key l) l :=
  List.perm_insertionSort _ l

theorem sortDesc_sorted {C : Type} (key : C → ℚ) (l : List C) :
    List.Sorted (keyGe key) (sortDesc key l) :=
  List.sorted_insertionSort _ l

theorem sortDesc_length {C : Type} (key : C → ℚ) (l : List C) :
    (sortDesc key l).length = l.length :=
  (sortDesc_perm key l).length_eq

theorem sortDesc_mem {C : Type} (key : C → ℚ) {l : List C} {x : C} :
    x ∈ sortDesc key l ↔ x ∈ l :=
  (sortDesc_perm key l).mem_iff

/-- C2 counterexample: engine construction with an empty population, a
mutation rate of 2 and a crossover rate of -1 succeeds and stores those
values verbatim; no InvalidConfiguration error is raised (none exists in
the code), refuting the claim that such inputs are rejected. -/
theorem mkGA_accepts_empty_population_and_bad_rates :
    (mkGA ([] : List ℚ) 0 3 2 (-1) .tournament id true).population = [] ∧
    (mkGA ([] : List ℚ) 0 3 2 (-1) .tournament id true).mutationRate = 2 ∧
    (mkGA ([] : List ℚ) 0 3 2 (-1) .tournament id true).crossoverRate = -1 ∧
    ¬ ((2 : ℚ) ≤ 1) ∧ ¬ ((0 : ℚ) ≤ -1) :=
  ⟨rfl, rfl, rfl, by norm_num, by norm_num⟩

/-- C2 amended: engine construction validates nothing.  For every
population (the empty one included) and all rates (in range or not),
construction succeeds and stores each argument unchanged. -/
theorem mkGA_stores_all_arguments {C : Type} (population : List C) (threshold : ℚ)
    (maxGenerations : Nat) (mutationRate crossoverRate : ℚ) (st : SelectionType)
    (fitnessKey : C → ℚ) (elitism : Bool) :
    (mkGA population threshold maxGenerations mutationRate crossoverRate st
        fitnessKey elitism).population = population ∧
    (mkGA population threshold maxGenerations mutationRate crossoverRate st
        fitnessKey elitism).threshold = threshold ∧
    (mkGA population threshold maxGenerations mutationRate crossoverRate st
        fitnessKey elitism).maxGenerations = maxGenerations ∧
    (mkGA population threshold maxGenerations mutationRate crossoverRate st
        fitnessKey elitism).mutationRate = mutationRate ∧
    (mkGA population threshold maxGenerations mutationRate crossoverRate st
        fitnessKey elitism).crossoverRate = crossoverRate ∧
    (mkGA population threshold maxGenerations mutationRate crossoverRate st
        fitnessKey elitism).selectionType = st ∧
    (mkGA population threshold maxGenerations mutationRate crossoverRate st
        fitnessKey elitism).fitnessKey = fitnessKey ∧
    (mkGA population threshold maxGenerations mutationRate crossoverRate st
        fitnessKey elitism).elitism = elitism :=
  ⟨rfl, rfl, rfl, rfl, rfl, rfl, rfl, rfl⟩

theorem sum_map_div_eq (T : ℚ) : ∀ l : List ℚ, (l.map (fun x => x / T)).sum = l.sum / T
  | [] => by simp
  | x :: xs => by simp [sum_map_div_eq T xs, add_div]

theorem forall2_map_self {α β : Type} (f : α → β) (R : α → β → Prop) :
    ∀ l : List α, (∀ x ∈ l, R x (f x)) → List.Forall₂ R l (l.map f)
  | [], _ => List.Forall₂.nil
  | x :: xs, h =>
    List.Forall₂.cons (h x (List.mem_cons_self x xs))
      (forall2_map_self f R xs fun y hy => h y (List.mem_cons_of_mem x hy))

/-- C7 counterexample: for the raw weights A = -2, B = 1 the total is -1,
the accessor succeeds and returns A = 2, B = -1: the values still sum to
one but every sign is flipped, refuting the claim that the sign of each
entry is preserved for every nonzero total. -/
theorem weights_sign_flips_on_negative_total :
    pNegTotal.weightsTotal = -1 ∧
    pNegTotal.weights = .ok [("A", 2), ("B", -1)] ∧
    (-2 : ℚ) < 0 ∧ (0 : ℚ) < 2 := by
  refine ⟨by with_unfolding_all decide, by with_unfolding_all decide, by norm_num, by norm_num⟩

/-- C7 amended: whenever the raw total is nonzero the accessor returns the
mapping with every value divided by that total, so the normalized values
sum to exactly one and preserve relative proportions; each entry keeps its
sign exactly when the total is positive (a negative total flips all
signs); a raw total of exactly zero raises DegenerateWeights instead. -/
theorem weights_normalization_characterized :
    (∀ p : Portfolio, p.weightsTotal ≠ 0 →
      ∃ l, p.weights = .ok l ∧
        List.Forall₂ (normEntryOk p.weightsTotal) p.rawWeights l ∧
        (l.map Prod.snd).sum = 1) ∧
    (∀ p : Portfolio, p.weightsTotal = 0 →
      p.weights = .error .degenerateWeights) := by
  constructor
  · intro p hT
    refine ⟨p.rawWeights.map (fun kv => (kv.1, kv.2 / p.weightsTotal)), ?_, ?_, ?_⟩
    · simp [Portfolio.weights, hT]
    · refine forall2_map_self _ _ _ fun kv _ => ?_
      refine ⟨rfl, rfl, fun hpos => ⟨fun h => div_pos h hpos, fun h => div_neg_of_neg_of_pos h hpos⟩,
        fun hneg => ⟨fun h => div_neg_of_pos_of_neg h hneg, fun h => div_pos_of_neg_of_neg h hneg⟩⟩
    · have h1 : (p.rawWeights.map (fun kv => (kv.1, kv.2 / p.weightsTotal))).map Prod.snd
          = (p.rawWeights.map Prod.snd).map (fun x => x / p.weightsTotal) := by
        simp [List.map_map]
      rw [h1, sum_map_div_eq, Portfolio.weightsTotal, div_self]
      simpa [Portfolio.weightsTotal] using hT
  · intro p hT
    simp [Portfolio.weights, hT]

/-- C7 witness: the amended theorem evaluated on the 30/70 portfolio of the
test suite and on an all-zero portfolio. -/
theorem weights_normalization_witness :
    (pPosTotal.weightsTotal ≠ 0 ∧
      ∃ l, pPosTotal.weights = .ok l ∧
        List.Forall₂ (normEntryOk pPosTotal.weightsTotal) pPosTotal.rawWeights l ∧
        (l.map Prod.snd).sum = 1) ∧
    (pZeroTotal.weightsTotal = 0 ∧
      pZeroTotal.weights = .error .degenerateWeights) :=
  ⟨⟨by with_unfolding_all decide, weights_normalization_characterized.1 pPosTotal (by with_unfolding_all decide)⟩,
   ⟨by with_unfolding_all decide, weights_normalization_characterized.2 pZeroTotal (by with_unfolding_all decide)⟩⟩

theorem clamp01_nonneg (x : ℚ) : 0 ≤ clamp01 x := by
  unfold clamp01
  split
  next h => exact h.1
  next => exact le_refl 0

theorem clamp01_lt_one (x : ℚ) : clamp01 x < 1 := by
  unfold clamp01
  split
  next h => exact h.2
  next => norm_num

theorem clampPert_ge (x : ℚ) : -(1/10) ≤ clampPert x := by
  unfold clampPert
  split
  next => exact le_refl _
  next h =>
    split
    next => norm_num
    next => exact le_of_not_lt h

theorem clampPert_le (x : ℚ) : clampPert x ≤ 1/10 := by
  unfold clampPert
  split
  next => norm_num
  next =>
    split
    next => exact le_refl _
    next h2 => exact le_of_not_lt h2

theorem mutateWeights_zero_fst : ∀ (l : List (String × ℚ)) (s : Rsrc),
    (mutateWeights 0 l s).1 = l
  | [], _ => rfl
  | (a, w) :: rest, s => by
    have hg : ¬ (clamp01 (s.rats s.u) < 0) := not_lt.2 (clamp01_nonneg _)
    simp only [mutateWeights, if_neg hg]
    cases hrec : mutateWeights 0 rest { s with u := s.u + 1 } with
    | mk tail s2 =>
      have htail : tail = rest := by
        have := mutateWeights_zero_fst rest { s with u := s.u + 1 }
        rw [hrec] at this
        exact this
      simp [htail]

theorem mutateWeights_one_forall2 : ∀ (l : List (String × ℚ)) (s : Rsrc),
    List.Forall₂ (fun kv nv : String × ℚ =>
        nv.1 = kv.1 ∧ 0 ≤ nv.2 ∧
        ∃ d, -(1/10) ≤ d ∧ d ≤ 1/10 ∧ nv.2 = max 0 (kv.2 + d))
      l (mutateWeights 1 l s).1
  | [], _ => List.Forall₂.nil
  | (a, w) :: rest, s => by
    have hg : clamp01 (s.rats s.u) < 1 := clamp01_lt_one _
    simp only [mutateWeights, if_pos hg]
    cases hrec : mutateWeights 1 rest
        { s with u := s.u + 1 + 1 } with
    | mk tail s3 =>
      have htail := mutateWeights_one_forall2 rest { s with u := s.u + 1 + 1 }
      rw [hrec] at htail
      refine List.Forall₂.cons ?_ htail
      exact ⟨rfl, le_max_left 0 _,
        ⟨clampPert (s.rats (s.u + 1)), clampPert_ge _, clampPert_le _, rfl⟩⟩

/-- C9: mutate at rate 0 is a no-op on the stored weights, and mutate at
rate 1 rewrites every weight, each to the old value plus a perturbation of
the closed interval [-1/10, 1/10] floored at zero, so no weight is ever
negative afterwards; each asset's Bernoulli gate consumes its own draw. -/
theorem mutate_rate_endpoints :
    (∀ (p : Portfolio) (s : Rsrc), (Portfolio.mutate 0 p s).1 = p) ∧
    (∀ (p : Portfolio) (s : Rsrc),
      List.Forall₂ (fun kv nv : String × ℚ =>
          nv.1 = kv.1 ∧ 0 ≤ nv.2 ∧
          ∃ d, -(1/10) ≤ d ∧ d ≤ 1/10 ∧ nv.2 = max 0 (kv.2 + d))
        p.rawWeights ((Portfolio.mutate 1 p s).1.rawWeights)) := by
  constructor
  · intro p s
    show ({ p with rawWeights := (mutateWeights 0 p.rawWeights s).1 } : Portfolio) = p
    rw [mutateWeights_zero_fst]
  · intro p s
    show List.Forall₂ _ p.rawWeights ((mutateWeights 1 p.rawWeights s).1)
    exact mutateWeights_one_forall2 p.rawWeights s

theorem lookupW_pair_mem (q : Portfolio) (a : String)
    (h : a ∈ q.rawWeights.map Prod.fst) : (a, q.lookupW a) ∈ q.rawWeights := by
  simp only [Portfolio.lookupW]
  cases hfind : q.rawWeights.find? (fun kv => kv.1 == a) with
  | none =>
    exfalso
    rcases List.mem_map.1 h with ⟨kv, hkv, hfst⟩
    have hnot := List.find?_eq_none.1 hfind kv hkv
    simp [hfst] at hnot
  | some kv =>
    have hp : kv.1 = a := by simpa using List.find?_some hfind
    have hmem := List.mem_of_find?_eq_some hfind
    rw [← hp]
    simpa using hmem

/-- C8: crossover splits the asset list at the midpoint of self's
enumeration order.  Child A keeps self's first-half entries verbatim and
carries, for each remaining identifier, exactly the peer's stored entry;
child B is complementary; both children hold self's returns reference and
self's risk-free rate, and both enumerate exactly self's identifiers in
order.  The operation is a pure pairing, so the parents are untouched and
the children are freshly constructed values. -/
theorem crossover_midpoint_characterized (p q : Portfolio)
    (hsub : ∀ a ∈ p.rawWeights.map Prod.fst, a ∈ q.rawWeights.map Prod.fst) :
    (Portfolio.crossover p q).1.returnsRef = p.returnsRef ∧
    (Portfolio.crossover p q).2.returnsRef = p.returnsRef ∧
    (Portfolio.crossover p q).1.risk_free_rate = p.risk_free_rate ∧
    (Portfolio.crossover p q).2.risk_free_rate = p.risk_free_rate ∧
    (Portfolio.crossover p q).1.rawWeights.map Prod.fst = p.rawWeights.map Prod.fst ∧
    (Portfolio.crossover p q).2.rawWeights.map Prod.fst = p.rawWeights.map Prod.fst ∧
    (Portfolio.crossover p q).1.rawWeights.take (p.rawWeights.length / 2)
      = p.rawWeights.take (p.rawWeights.length / 2) ∧
    (Portfolio.crossover p q).2.rawWeights.drop (p.rawWeights.length / 2)
      = p.rawWeights.drop (p.rawWeights.length / 2) ∧
    (∀ kv ∈ (Portfolio.crossover p q).1.rawWeights.drop (p.rawWeights.length / 2),
      kv ∈ q.rawWeights) ∧
    (∀ kv ∈ (Portfolio.crossover p q).2.rawWeights.take (p.rawWeights.length / 2),
      kv ∈ q.rawWeights) := by
  have hmid : p.rawWeights.length / 2 ≤ p.rawWeights.length := Nat.div_le_self _ _
  have hlen : (p.rawWeights.take (p.rawWeights.length / 2)).length
      = p.rawWeights.length / 2 := by
    rw [List.length_take]
    exact min_eq_left hmid
  have hmapfst : ∀ l : List (String × ℚ),
      (l.map (fun kv => (kv.1, q.lookupW kv.1))).map Prod.fst = l.map Prod.fst := by
    intro l
    rw [List.map_map]
    exact List.map_congr_left fun kv _ => rfl
  have hlenf : ((p.rawWeights.take (p.rawWeights.length / 2)).map
      (fun kv => (kv.1, q.lookupW kv.1))).length = p.rawWeights.length / 2 := by
    rw [List.length_map]
    exact hlen
  have hmemf : ∀ l : List (String × ℚ), (∀ kv ∈ l, kv ∈ p.rawWeights) →
      ∀ kv ∈ l.map (fun kv => (kv.1, q.lookupW kv.1)), kv ∈ q.rawWeights := by
    intro l hl kv hkv
    rcases List.mem_map.1 hkv with ⟨kv0, hkv0, hkv0e⟩
    rw [← hkv0e]
    exact lookupW_pair_mem q kv0.1 (hsub kv0.1 (List.mem_map_of_mem Prod.fst (hl kv0 hkv0)))
  refine ⟨rfl, rfl, rfl, rfl, ?_, ?_, ?_, ?_, ?_, ?_⟩
  · show (p.rawWeights.take (p.rawWeights.length / 2) ++
        (p.rawWeights.drop (p.rawWeights.length / 2)).map
          (fun kv => (kv.1, q.lookupW kv.1))).map Prod.fst = p.rawWeights.map Prod.fst
    rw [List.map_append, hmapfst, ← List.map_append, List.take_append_drop]
  · show ((p.rawWeights.take (p.rawWeights.length / 2)).map
        (fun kv => (kv.1, q.lookupW kv.1)) ++
          p.rawWeights.drop (p.rawWeights.length / 2)).map Prod.fst
        = p.rawWeights.map Prod.fst
    rw [List.map_append, hmapfst, ← List.map_append, List.take_append_drop]
  · exact List.take_left' hlen
  · exact List.drop_left' hlenf
  · intro kv hkv
    have hA : (Portfolio.crossover p q).1.rawWeights
        = p.rawWeights.take (p.rawWeights.length / 2) ++
          (p.rawWeights.drop (p.rawWeights.length / 2)).map
            (fun kv => (kv.1, q.lookupW kv.1)) := rfl
    rw [hA, List.drop_left' hlen] at hkv
    exact hmemf _ (fun kv0 h => List.mem_of_mem_drop h) kv hkv
  · intro kv hkv
    have hB : (Portfolio.crossover p q).2.rawWeights
        = (p.rawWeights.take (p.rawWeights.length / 2)).map
            (fun kv => (kv.1, q.lookupW kv.1)) ++
          p.rawWeights.drop (p.rawWeights.length / 2) := rfl
    rw [hB, List.take_left' hlenf] at hkv
    exact hmemf _ (fun kv0 h => List.mem_of_mem_take h) kv hkv

/-- C8 witness: the characterization applied to the two four-asset parents
of the test suite, whose identifier sets agree. -/
theorem crossover_midpoint_witness :
    (∀ a ∈ pTest1.rawWeights.map Prod.fst, a ∈ pTest2.rawWeights.map Prod.fst) ∧
    ((Portfolio.crossover pTest1 pTest2).1.returnsRef = pTest1.returnsRef ∧
     (Portfolio.crossover pTest1 pTest2).2.returnsRef = pTest1.returnsRef ∧
     (Portfolio.crossover pTest1 pTest2).1.risk_free_rate = pTest1.risk_free_rate ∧
     (Portfolio.crossover pTest1 pTest2).2.risk_free_rate = pTest1.risk_free_rate ∧
     (Portfolio.crossover pTest1 pTest2).1.rawWeights.map Prod.fst
       = pTest1.rawWeights.map Prod.fst ∧
     (Portfolio.crossover pTest1 pTest2).2.rawWeights.map Prod.fst
       = pTest1.rawWeights.map Prod.fst ∧
     (Portfolio.crossover pTest1 pTest2).1.rawWeights.take (pTest1.rawWeights.length / 2)
       = pTest1.rawWeights.take (pTest1.rawWeights.length / 2) ∧
     (Portfolio.crossover pTest1 pTest2).2.rawWeights.drop (pTest1.rawWeights.length / 2)
       = pTest1.rawWeights.drop (pTest1.rawWeights.length / 2) ∧
     (∀ kv ∈ (Portfolio.crossover pTest1 pTest2).1.rawWeights.drop
         (pTest1.rawWeights.length / 2), kv ∈ pTest2.rawWeights) ∧
     (∀ kv ∈ (Portfolio.crossover pTest1 pTest2).2.rawWeights.take
         (pTest1.rawWeights.length / 2), kv ∈ pTest2.rawWeights)) :=
  ⟨by with_unfolding_all decide,
   crossover_midpoint_characterized pTest1 pTest2 (by with_unfolding_all decide)⟩

/-- C1: in run, _reduce_replace has already installed the new population
into self._population before _apply_elitism(self._population) is invoked,
so both populations the elitism step sorts are the same (new) list and the
elite is drawn from the new population, not the prior one, contradicting
_apply_elitism's own stated purpose of preserving the best individuals of
the previous population.  Concretely: the population [10, 1] under the
identity fitness accessor, elitism on and elite count max(1, 2/10) = 1,
with draws that reproduce only the worse chromosome, yields the next
population [1, 1]: the prior best 10 (strictly the top candidate of the
prior generation) is gone, and run even returns it as overall best. -/
theorem elitism_loses_prior_best :
    gaC1.population = [10, 1] ∧
    gaC1.elitism = true ∧
    (runGA (streamOps ℚ) gaC1 rsrcHigh).2.2.1.population = [1, 1] ∧
    (10 : ℚ) ∉ (runGA (streamOps ℚ) gaC1 rsrcHigh).2.2.1.population ∧
    (runGA (streamOps ℚ) gaC1 rsrcHigh).1 = .ok 10 := by
  with_unfolding_all decide

/-- C10: run can rewrite the caller's own candidates.  In the heap
instantiation the caller constructs candidates 0 and 1 and hands the
engine the population [0, 1]; with a failing crossover roll the tournament
parents (both candidate 0) are carried into the new population by
reference, and the mutation phase then calls mutate() on them in place:
after run returns, the caller's candidate 0 no longer stores its original
weights (asset A went from 1/2 to 3/5 through two in-place mutations),
while candidate 1 is untouched. -/
theorem run_mutates_callers_candidates :
    gaC10.population = [0, 1] ∧
    sC10.heap 0 = [("A", 1/2)] ∧
    (runGA storeOps gaC10 sC10).2.2.1.population = [0, 0] ∧
    (runGA storeOps gaC10 sC10).2.2.2.heap 0 = [("A", 3/5)] ∧
    (runGA storeOps gaC10 sC10).2.2.2.heap 0 ≠ sC10.heap 0 ∧
    (runGA storeOps gaC10 sC10).2.2.2.heap 1 = sC10.heap 1 := by
  with_unfolding_all decide

theorem drawChoices_ok {S C : Type} (ops : EngineOps S C) (pop : List C)
    (hpop : pop ≠ []) :
    ∀ (k : Nat) (s : S), ∃ l s2, drawChoices ops pop k s = .ok (l, s2) ∧
      l.length = k ∧ ∀ x ∈ l, x ∈ pop
  | 0, s => ⟨[], s, rfl, rfl, by simp⟩
  | Nat.succ k, s => by
    have hlen : 0 < pop.length := List.length_pos.2 hpop
    have hidx : (ops.pickNat s).1 % pop.length < pop.length :=
      Nat.mod_lt _ hlen
    rcases drawChoices_ok ops pop hpop k (ops.pickNat s).2 with ⟨l, s2, heq, hl, hmem⟩
    refine ⟨pop[(ops.pickNat s).1 % pop.length] :: l, s2, ?_, by simp [hl], ?_⟩
    · simp only [drawChoices]
      rw [List.getElem?_eq_getElem hidx]
      rw [heq]
    · intro x hx
      rcases List.mem_cons.1 hx with hx | hx
      · rw [hx]; exact List.getElem_mem hidx
      · exact hmem x hx

/-- C6: tournament selection with at least one competitor on a nonempty
population draws its competitors with replacement from the population and
returns exactly two chromosomes, the top two of the drawn participants in
descending fitness order: for the drawn list both components are among the
draws, the first is maximal over all of them, and with at least two
competitors the draws split as one occurrence of the first, one of the
second, and a remainder the second dominates; a singleton population
forces both to be its unique chromosome, and a single competitor is
duplicated into both parents without error. -/
theorem pickTournament_spec {S C : Type} (ops : EngineOps S C) (key : C → ℚ)
    (pop : List C) (k : Nat) (s : S) (hk : 1 ≤ k) (hpop : pop ≠ []) :
    ∃ p q s2, pickTournament ops key pop k s = .ok ((p, q), s2) ∧
      p ∈ pop ∧ q ∈ pop ∧ key q ≤ key p ∧
      (∀ l s3, drawChoices ops pop k s = .ok (l, s3) →
        p ∈ l ∧ q ∈ l ∧ (∀ x ∈ l, key x ≤ key p) ∧
        (2 ≤ k → ∃ rest, List.Perm l (p :: q :: rest) ∧ ∀ x ∈ rest, key x ≤ key q)) ∧
      (∀ c, pop = [c] → p = c ∧ q = c) ∧
      (k = 1 → p = q) := by
  rcases drawChoices_ok ops pop hpop k s with ⟨l, s2, heq, hl, hmem⟩
  have hsortmem : ∀ x, x ∈ sortDesc key l ↔ x ∈ l := fun x => sortDesc_mem key
  have hsorted := sortDesc_sorted key l
  have hslen : (sortDesc key l).length = l.length := sortDesc_length key l
  have hperm := sortDesc_perm key l
  cases hs : sortDesc key l with
  | nil =>
    exfalso
    rw [hs] at hslen
    simp at hslen
    omega
  | cons p rest =>
    cases rest with
    | nil =>
      have hk1 : k = 1 := by
        rw [hs] at hslen
        simp at hslen
        omega
      have hpl : p ∈ l := (hsortmem p).1 (by rw [hs]; exact List.mem_singleton_self p)
      refine ⟨p, p, s2, ?_, hmem p hpl, hmem p hpl, le_refl _, ?_, ?_, fun _ => rfl⟩
      · simp only [pickTournament, heq, hs]
      · intro l2 s3 heq2
        have hleq : l2 = l := by
          rw [heq] at heq2
          injection heq2 with h1
          injection h1 with h2
          exact h2.symm
        subst hleq
        refine ⟨hpl, hpl, ?_, ?_⟩
        · intro x hx
          have hxs := (hsortmem x).2 hx
          rw [hs] at hxs
          have hxp : x = p := List.mem_singleton.1 hxs
          rw [hxp]
        · intro hk2
          omega
      · intro c hc
        have hp2 := hmem p hpl
        rw [hc] at hp2
        have hpc := List.mem_singleton.1 hp2
        exact ⟨hpc, hpc⟩
    | cons q rest2 =>
      have hp : p ∈ sortDesc key l := by rw [hs]; simp
      have hq : q ∈ sortDesc key l := by rw [hs]; simp
      have hsorted2 : List.Sorted (keyGe key) (p :: q :: rest2) := by
        rw [← hs]
        exact hsorted
      have hpermPQ : List.Perm l (p :: q :: rest2) := by
        rw [← hs]
        exact hperm.symm
      refine ⟨p, q, s2, ?_, hmem p ((hsortmem p).1 hp), hmem q ((hsortmem q).1 hq),
        List.rel_of_sorted_cons hsorted2 q (by simp), ?_, ?_, ?_⟩
      · simp only [pickTournament, heq, hs]
      · intro l2 s3 heq2
        have hleq : l2 = l := by
          rw [heq] at heq2
          injection heq2 with h1
          injection h1 with h2
          exact h2.symm
        subst hleq
        refine ⟨(hsortmem p).1 hp, (hsortmem q).1 hq, ?_, ?_⟩
        · intro x hx
          have hxs := (hsortmem x).2 hx
          rw [hs] at hxs
          rcases List.mem_cons.1 hxs with hxp | hxr
          · rw [hxp]
          · exact List.rel_of_sorted_cons hsorted2 x hxr
        · intro _
          refine ⟨rest2, hpermPQ, ?_⟩
          intro x hx
          exact List.rel_of_sorted_cons (List.Sorted.of_cons hsorted2) x hx
      · intro c hc
        have hp2 := hmem p ((hsortmem p).1 hp)
        have hq2 := hmem q ((hsortmem q).1 hq)
        rw [hc] at hp2 hq2
        exact ⟨List.mem_singleton.1 hp2, List.mem_singleton.1 hq2⟩
      · intro hk1
        rw [hk1] at hl
        rw [hs] at hslen
        rw [hl] at hslen
        simp at hslen

/-- C6 witness: three competitors drawn from the population [2, 5, 3] with
the index stream 0, 1, 2 give the participants [2, 5, 3] and the ordered
top-two pair (5, 3), with 2 the dominated remainder. -/
theorem pickTournament_spec_witness :
    (1 ≤ 3 ∧ ([2, 5, 3] : List ℚ) ≠ []) ∧
    (∃ p q s2, pickTournament (streamOps ℚ) id ([2, 5, 3] : List ℚ) 3 rsrcSeq
        = .ok ((p, q), s2) ∧
      p ∈ ([2, 5, 3] : List ℚ) ∧ q ∈ ([2, 5, 3] : List ℚ) ∧ id q ≤ id p ∧
      (∀ l s3, drawChoices (streamOps ℚ) ([2, 5, 3] : List ℚ) 3 rsrcSeq = .ok (l, s3) →
        p ∈ l ∧ q ∈ l ∧ (∀ x ∈ l, id x ≤ id p) ∧
        (2 ≤ 3 → ∃ rest, List.Perm l (p :: q :: rest) ∧ ∀ x ∈ rest, id x ≤ id q)) ∧
      (∀ c, ([2, 5, 3] : List ℚ) = [c] → p = c ∧ q = c) ∧
      (3 = 1 → p = q)) :=
  ⟨⟨by norm_num, by simp⟩,
   pickTournament_spec (streamOps ℚ) id [2, 5, 3] 3 rsrcSeq (by norm_num) (by simp)⟩

theorem buildNew_ok_length {S C : Type} (ops : EngineOps S C) (ga : GA C) (target : Nat) :
    ∀ (fuel : Nat) (acc : List C) (s : S) (l : List C) (s2 : S),
      buildNew ops ga target fuel acc s = .ok (l, s2) →
      (target ≤ acc.length → l = acc) ∧
      (acc.length < target → target ≤ l.length ∧ l.length ≤ target + 1)
  | 0, acc, s, l, s2 => by
    intro h
    simp only [buildNew] at h
    split at h
    next hlt => simp at h
    next hge =>
      simp only [Except.ok.injEq, Prod.mk.injEq] at h
      exact ⟨fun _ => h.1.symm, fun hlt => absurd hlt hge⟩
  | Nat.succ fuel, acc, s, l, s2 => by
    intro h
    simp only [buildNew] at h
    split at h
    next hlt =>
      refine ⟨fun hge => absurd hlt (not_lt.2 hge), fun _ => ?_⟩
      split at h
      next => simp at h
      next p1 p2 s1 heq =>
        split at h
        next hr =>
          split at h
          next => simp at h
          next c1 c2 s3 heq2 =>
            have hrec := buildNew_ok_length ops ga target fuel (acc ++ [c1, c2]) s3 l s2 h
            have hacclen : (acc ++ [c1, c2]).length = acc.length + 2 := by simp
            by_cases hlt2 : (acc ++ [c1, c2]).length < target
            · exact hrec.2 hlt2
            · have hl := hrec.1 (not_lt.1 hlt2)
              rw [hl, hacclen]
              omega
        next hr =>
          have hrec := buildNew_ok_length ops ga target fuel (acc ++ [p1, p2]) _ l s2 h
          have hacclen : (acc ++ [p1, p2]).length = acc.length + 2 := by simp
          by_cases hlt2 : (acc ++ [p1, p2]).length < target
          · exact hrec.2 hlt2
          · have hl := hrec.1 (not_lt.1 hlt2)
            rw [hl, hacclen]
            omega
    next hge =>
      simp only [Except.ok.injEq, Prod.mk.injEq] at h
      exact ⟨fun _ => h.1.symm, fun hlt => absurd hlt hge⟩

theorem applyElitism_true_length {C : Type} (key : C → ℚ) (pop : List C) :
    (applyElitism true key pop pop).length = pop.length := by
  have h10 : pop.length / 10 ≤ pop.length := Nat.div_le_self _ _
  simp only [applyElitism]
  rw [if_neg (by simp)]
  simp only [List.length_append, List.length_take, sortDesc_length]
  omega

theorem mutationPass_length {S C : Type} (ops : EngineOps S C) (rate : ℚ) :
    ∀ (l : List C) (s : S), (mutationPass ops rate l s).1.length = l.length
  | [], _ => rfl
  | c :: cs, s => by
    simp only [mutationPass]
    split
    next => simp [mutationPass_length ops rate cs]
    next => simp [mutationPass_length ops rate cs]

theorem reduceReplace_ok_spec {S C : Type} (ops : EngineOps S C) (ga : GA C) (s : S)
    (out : GA C × S) (h : reduceReplace ops ga s = .ok out) :
    out.1.population.length = ga.population.length ∧
    out.1.threshold = ga.threshold ∧
    out.1.fitnessKey = ga.fitnessKey ∧
    out.1.elitism = ga.elitism ∧
    out.1.mutationRate = ga.mutationRate ∧
    out.1.crossoverRate = ga.crossoverRate ∧
    out.1.maxGenerations = ga.maxGenerations ∧
    out.1.selectionType = ga.selectionType := by
  simp only [reduceReplace] at h
  split at h
  next => simp at h
  next newPop s1 hb =>
    simp only [Except.ok.injEq] at h
    have hbl := buildNew_ok_length ops ga ga.population.length (ga.population.length + 1)
      [] s newPop s1 hb
    rw [← h]
    refine ⟨?_, rfl, rfl, rfl, rfl, rfl, rfl, rfl⟩
    by_cases h0 : ga.population.length = 0
    · have hnil := hbl.1 (by omega)
      simp only [hnil]
      simp [h0]
    · have hbounds := hbl.2 (by simp; omega)
      by_cases hover : ga.population.length < newPop.length
      · simp only [if_pos hover, List.length_dropLast]
        omega
      · simp only [if_neg hover]
        omega

theorem genStep_ok_spec {S C : Type} (ops : EngineOps S C) (ga : GA C) (s : S)
    (out : GA C × S) (h : genStep ops ga s = .ok out) :
    out.1.population.length = ga.population.length ∧
    out.1.threshold = ga.threshold ∧
    out.1.fitnessKey = ga.fitnessKey ∧
    out.1.elitism = ga.elitism ∧
    out.1.mutationRate = ga.mutationRate ∧
    out.1.crossoverRate = ga.crossoverRate ∧
    out.1.maxGenerations = ga.maxGenerations ∧
    out.1.selectionType = ga.selectionType := by
  simp only [genStep] at h
  split at h
  next => simp at h
  next ga1 s1 hr =>
    have hspec := reduceReplace_ok_spec ops ga s (ga1, s1) hr
    split at h
    next helit =>
      simp only [Except.ok.injEq] at h
      rw [← h]
      have hml := mutationPass_length ops
        ({ ga1 with population :=
            applyElitism ga1.elitism ga1.fitnessKey ga1.population ga1.population }).mutationRate
        ({ ga1 with population :=
            applyElitism ga1.elitism ga1.fitnessKey ga1.population ga1.population }).population
        s1
      refine ⟨?_, hspec.2.1, hspec.2.2.1, hspec.2.2.2.1, hspec.2.2.2.2.1,
        hspec.2.2.2.2.2.1, hspec.2.2.2.2.2.2.1, hspec.2.2.2.2.2.2.2⟩
      simp only at hml ⊢
      rw [hml]
      simp only [helit]
      rw [applyElitism_true_length]
      exact hspec.1
    next helit =>
      simp only [Except.ok.injEq] at h
      rw [← h]
      have hml := mutationPass_length ops ga1.mutationRate ga1.population s1
      refine ⟨?_, hspec.2.1, hspec.2.2.1, hspec.2.2.2.1, hspec.2.2.2.2.1,
        hspec.2.2.2.2.2.1, hspec.2.2.2.2.2.2.1, hspec.2.2.2.2.2.2.2⟩
      simp only at hml ⊢
      rw [hml]
      exact hspec.1

/-- C5: population size is invariant across a full generation step
(reproduction, the elitism splice exactly as run invokes it, and the
mutation pass), and the raw reproduction batch, built by rounds of two,
reaches at least the target size and exceeds it by at most one element
before the truncation of _reduce_replace restores the exact size. -/
theorem population_size_invariant :
    (∀ (S C : Type) (ops : EngineOps S C) (ga : GA C) (s : S) (out : GA C × S),
        genStep ops ga s = .ok out → out.1.population.length = ga.population.length) ∧
    (∀ (S C : Type) (ops : EngineOps S C) (ga : GA C) (s : S) (l : List C) (s2 : S),
        buildNew ops ga ga.population.length (ga.population.length + 1) [] s = .ok (l, s2) →
        ga.population.length ≤ l.length ∧ l.length ≤ ga.population.length + 1) := by
  constructor
  · intro S C ops ga s out h
    exact (genStep_ok_spec ops ga s out h).1
  · intro S C ops ga s l s2 h
    have hbl := buildNew_ok_length ops ga ga.population.length (ga.population.length + 1)
      [] s l s2 h
    by_cases h0 : ga.population.length = 0
    · have hnil := hbl.1 (by omega)
      rw [hnil]
      simp [h0]
    · have hbounds := hbl.2 (by simp; omega)
      omega

/-- C5 witness: one generation step over the three chromosomes [3, 1, 2]
(whose reproduction batch overshoots to four members before truncation)
keeps the population size at three. -/
theorem population_size_invariant_witness :
    (genStep (streamOps ℚ) gaC5 rsrcHigh =
      .ok ({ gaC5 with population := [1, 1, 1] }, { rsrcHigh with t := 6, u := 5 })) ∧
    (({ gaC5 with population := [1, 1, 1] } : GA ℚ).population.length
      = gaC5.population.length) ∧
    (buildNew (streamOps ℚ) gaC5 gaC5.population.length (gaC5.population.length + 1) []
        rsrcHigh = .ok ([1, 1, 1, 1], { rsrcHigh with t := 6, u := 2 })) ∧
    (gaC5.population.length ≤ ([1, 1, 1, 1] : List ℚ).length ∧
      ([1, 1, 1, 1] : List ℚ).length ≤ gaC5.population.length + 1) :=
  ⟨by with_unfolding_all rfl,
   population_size_invariant.1 Rsrc ℚ (streamOps ℚ) gaC5 rsrcHigh
     ({ gaC5 with population := [1, 1, 1] }, { rsrcHigh with t := 6, u := 5 })
     (by with_unfolding_all rfl),
   by with_unfolding_all rfl,
   population_size_invariant.2 Rsrc ℚ (streamOps ℚ) gaC5 rsrcHigh [1, 1, 1, 1]
     { rsrcHigh with t := 6, u := 2 } (by with_unfolding_all rfl)⟩

theorem runLoop_error_no_results {S C : Type} (ops : EngineOps S C) :
    ∀ (remaining : Nat) (ga : GA C) (best : C) (hist : List GenRecord) (gen : Nat) (s : S)
      (e : GAErr),
      (runLoop ops ga best hist gen remaining s).1 = .error e →
      (runLoop ops ga best hist gen remaining s).2.1 = none
  | 0, ga, best, hist, gen, s, e => by
    intro h
    simp [runLoop] at h
  | Nat.succ remaining, ga, best, hist, gen, s, e => by
    intro h
    cases hp : ga.population with
    | nil =>
      simp only [runLoop, hp]
    | cons p ps =>
      simp only [runLoop, hp] at h ⊢
      by_cases hth : ga.threshold ≤ ga.fitnessKey best
      · rw [if_pos hth] at h
        simp at h
      · rw [if_neg hth] at h ⊢
        cases hg : genStep ops ga s with
        | error e2 =>
          simp only [hg] at h ⊢
        | ok val =>
          obtain ⟨ga2, s2⟩ := val
          simp only [hg] at h ⊢
          cases hp2 : ga2.population with
          | nil =>
            simp only [hp2] at h ⊢
          | cons q qs =>
            simp only [hp2] at h ⊢
            exact runLoop_error_no_results ops remaining ga2 _ _ _ _ e h

/-- C3 amended: an error raised by a chromosome operation during a
generation aborts run immediately, with no local recovery, exactly as
claimed; but the history rows recorded before the error are NOT available
to the caller afterwards: run accumulates them in locals and publishes
self.results only after the loop finishes or breaks, so an aborted run
exposes no history at all. -/
theorem run_error_discards_history {S C : Type} (ops : EngineOps S C) (ga : GA C) (s : S)
    (e : GAErr) (h : (runGA ops ga s).1 = .error e) :
    (runGA ops ga s).2.1 = none := by
  cases hp : ga.population with
  | nil => simp only [runGA, hp]
  | cons p ps =>
    simp only [runGA, hp] at h ⊢
    exact runLoop_error_no_results ops ga.maxGenerations ga _ _ _ _ e h

/-- C3 counterexample: the engine over [5, 1] with crossover rate 1 invokes
the chromosome crossover in the very first reproduction round, and that
operation raises.  The loop had already appended the generation-0 row (its
best fitness 5 is below the threshold 100, so the break was not taken and
reproduction was reached), yet run surfaces the error with no history at
all: the recorded rows are not available to the caller, refuting the
claim. -/
theorem run_abort_loses_recorded_history :
    gaC3.fitnessKey 5 < gaC3.threshold ∧
    (runGA (failOps ℚ) gaC3 rsrcHigh).1 = .error (.candidate "boom") ∧
    (runGA (failOps ℚ) gaC3 rsrcHigh).2.1 = none := by
  with_unfolding_all decide

/-- C3 witness: the amended theorem applied to the aborting concrete run. -/
theorem run_error_discards_history_witness :
    (runGA (failOps ℚ) gaC3 rsrcHigh).1 = .error (.candidate "boom") ∧
    (runGA (failOps ℚ) gaC3 rsrcHigh).2.1 = none :=
  ⟨by with_unfolding_all decide,
   run_error_discards_history (failOps ℚ) gaC3 rsrcHigh (.candidate "boom")
     (by with_unfolding_all decide)⟩

theorem buildNew_total {S C : Type} (ops : EngineOps S C) (ga : GA C) (target : Nat)
    (hpop : ga.population ≠ [])
    (hcross : ∀ (a b : C) (st : S), ∃ out, ops.crossover a b st = .ok out) :
    ∀ (fuel : Nat) (acc : List C) (s : S), target - acc.length ≤ fuel →
      ∃ l s2, buildNew ops ga target fuel acc s = .ok (l, s2)
  | 0, acc, s => by
    intro hfuel
    have hge : ¬ (acc.length < target) := by omega
    exact ⟨acc, s, by simp [buildNew, hge]⟩
  | Nat.succ fuel, acc, s => by
    intro hfuel
    by_cases hlt : acc.length < target
    · obtain ⟨p1, p2, s1, hpt, -, -, -, -, -, -⟩ :=
        pickTournament_spec ops ga.fitnessKey ga.population 3 s (by norm_num) hpop
      by_cases hr : (ops.roll s1).1 < ga.crossoverRate
      · obtain ⟨⟨⟨c1, c2⟩, s3⟩, hcx⟩ := hcross p1 p2 (ops.roll s1).2
        obtain ⟨l, s4, hb⟩ := buildNew_total ops ga target hpop hcross fuel
          (acc ++ [c1, c2]) s3 (by simp; omega)
        refine ⟨l, s4, ?_⟩
        simp only [buildNew, if_pos hlt, hpt]
        rw [if_pos hr, hcx]
        exact hb
      · obtain ⟨l, s4, hb⟩ := buildNew_total ops ga target hpop hcross fuel
          (acc ++ [p1, p2]) (ops.roll s1).2 (by simp; omega)
        refine ⟨l, s4, ?_⟩
        simp only [buildNew, if_pos hlt, hpt]
        rw [if_neg hr]
        exact hb
    · exact ⟨acc, s, by simp [buildNew, hlt]⟩

theorem genStep_total {S C : Type} (ops : EngineOps S C) (ga : GA C) (s : S)
    (hpop : ga.population ≠ [])
    (hcross : ∀ (a b : C) (st : S), ∃ out, ops.crossover a b st = .ok out) :
    ∃ out, genStep ops ga s = .ok out := by
  obtain ⟨l, s2, hb⟩ := buildNew_total ops ga ga.population.length hpop hcross
    (ga.population.length + 1) [] s (by simp)
  cases hg : genStep ops ga s with
  | ok out => exact ⟨out, rfl⟩
  | error e =>
    exfalso
    simp only [genStep, reduceReplace, hb] at hg
    exact Except.noConfusion hg

theorem runLoop_total {S C : Type} (ops : EngineOps S C)
    (hcross : ∀ (a b : C) (st : S), ∃ out, ops.crossover a b st = .ok out) :
    ∀ (remaining : Nat) (ga : GA C) (best : C) (hist : List GenRecord) (gen : Nat) (s : S),
      ga.population ≠ [] →
      (∀ c, ga.fitnessKey c < ga.threshold) →
      ∃ bestF rs gaF sF,
        runLoop ops ga best hist gen remaining s = (.ok bestF, some (hist ++ rs), gaF, sF) ∧
        rs.length = remaining ∧
        List.Chain' (fun a b => a.bestFitness ≤ b.bestFitness) rs ∧
        (∀ r0 ∈ rs.head?, r0.bestFitness = ga.fitnessKey best)
  | 0, ga, best, hist, gen, s => by
    intro hne hth
    refine ⟨best, [], ga, s, ?_, rfl, List.chain'_nil, by simp⟩
    simp [runLoop]
  | Nat.succ remaining, ga, best, hist, gen, s => by
    intro hne hth
    obtain ⟨p, ps, hp⟩ : ∃ p ps, ga.population = p :: ps := by
      cases hpe : ga.population with
      | nil => exact absurd hpe hne
      | cons p ps => exact ⟨p, ps, rfl⟩
    have hnotth : ¬ (ga.threshold ≤ ga.fitnessKey best) := not_le.2 (hth best)
    obtain ⟨⟨ga2, s2⟩, hg⟩ := genStep_total ops ga s hne hcross
    have hspec := genStep_ok_spec ops ga s (ga2, s2) hg
    have hlen2 : ga2.population.length = ga.population.length := hspec.1
    have hne2 : ga2.population ≠ [] := by
      intro hnil
      rw [hnil] at hlen2
      have hpos := List.length_pos.2 hne
      simp at hlen2
      omega
    have hfk : ga2.fitnessKey = ga.fitnessKey := hspec.2.2.1
    have hth2 : ∀ c, ga2.fitnessKey c < ga2.threshold := by
      rw [hfk, hspec.2.1]
      exact hth
    obtain ⟨q, qs, hp2⟩ : ∃ q qs, ga2.population = q :: qs := by
      cases hpe : ga2.population with
      | nil => exact absurd hpe hne2
      | cons q qs => exact ⟨q, qs, rfl⟩
    obtain ⟨bestF, rs2, gaF, sF, heq, hlen', hchain', hhead'⟩ :=
      runLoop_total ops hcross remaining ga2
        (if ga2.fitnessKey best < ga2.fitnessKey (firstMaxBy ga2.fitnessKey q qs)
          then firstMaxBy ga2.fitnessKey q qs else best)
        (hist ++ [⟨gen, ga.fitnessKey best, listMean ((p :: ps).map ga.fitnessKey)⟩])
        (gen + 1) s2 hne2 hth2
    have hble : ga.fitnessKey best ≤ ga2.fitnessKey
        (if ga2.fitnessKey best < ga2.fitnessKey (firstMaxBy ga2.fitnessKey q qs)
          then firstMaxBy ga2.fitnessKey q qs else best) := by
      by_cases hc : ga2.fitnessKey best < ga2.fitnessKey (firstMaxBy ga2.fitnessKey q qs)
      · rw [if_pos hc]
        rw [← congrFun hfk best]
        exact le_of_lt hc
      · rw [if_neg hc]
        rw [congrFun hfk best]
    refine ⟨bestF,
      ⟨gen, ga.fitnessKey best, listMean ((p :: ps).map ga.fitnessKey)⟩ :: rs2,
      gaF, sF, ?_, by simp [hlen'], ?_, ?_⟩
    · simp only [runLoop, hp]
      rw [if_neg hnotth]
      simp only [hg, hp2]
      rw [heq, List.append_assoc, List.singleton_append]
    · refine List.chain'_cons'.2 ⟨?_, hchain'⟩
      intro y hy
      have hybf := hhead' y hy
      show GenRecord.bestFitness ⟨gen, ga.fitnessKey best, _⟩ ≤ y.bestFitness
      rw [hybf]
      exact hble
    · intro r0 hr0
      simp only [List.head?_cons, Option.mem_some_iff] at hr0
      subst hr0
      rfl

/-- C4: on a nonempty population whose fitness never reaches the
threshold, and with chromosome operations that never raise, run completes
all max_generations generations, returns a best chromosome, and exposes a
history with exactly one row per generation whose best-fitness column is
monotonically non-decreasing in generation order (the running best is
replaced only on strict improvement). -/
theorem run_returns_full_monotone_history {S C : Type} (ops : EngineOps S C) (ga : GA C)
    (s : S) (hpop : ga.population ≠ [])
    (hth : ∀ c, ga.fitnessKey c < ga.threshold)
    (hcross : ∀ (a b : C) (st : S), ∃ out, ops.crossover a b st = .ok out) :
    ∃ best hist gaF sF,
      runGA ops ga s = (.ok best, some hist, gaF, sF) ∧
      hist.length = ga.maxGenerations ∧
      List.Chain' (fun a b => a.bestFitness ≤ b.bestFitness) hist := by
  obtain ⟨p, ps, hp⟩ : ∃ p ps, ga.population = p :: ps := by
    cases hpe : ga.population with
    | nil => exact absurd hpe hpop
    | cons p ps => exact ⟨p, ps, rfl⟩
  obtain ⟨bestF, rs, gaF, sF, heq, hlen, hchain, -⟩ :=
    runLoop_total ops hcross ga.maxGenerations ga (firstMaxBy ga.fitnessKey p ps)
      [] 0 s hpop hth
  refine ⟨bestF, rs, gaF, sF, ?_, hlen, hchain⟩
  simp only [runGA, hp]
  exact heq

/-- C4 witness: the Bool engine with constant fitness 0 and unreachable
threshold 100 completes both of its two generations, returning a best
chromosome and a two-row history with non-decreasing best fitness. -/
theorem run_returns_full_monotone_history_witness :
    (gaC4.population ≠ [] ∧ (∀ c, gaC4.fitnessKey c < gaC4.threshold)) ∧
    (∃ best hist gaF sF,
      runGA (streamOps Bool) gaC4 rsrcHigh = (.ok best, some hist, gaF, sF) ∧
      hist.length = gaC4.maxGenerations ∧
      List.Chain' (fun a b => a.bestFitness ≤ b.bestFitness) hist) :=
  ⟨⟨by with_unfolding_all decide, by with_unfolding_all decide⟩,
   run_returns_full_monotone_history (streamOps Bool) gaC4 rsrcHigh
     (by with_unfolding_all decide) (by with_unfolding_all decide)
     (fun a b st => ⟨((a, b), st), rfl⟩)⟩
